import Mathlib

/-!
Shallow embedding of blast.py (liu-congcong/blast), a wrapper that shards a
FASTA query file, runs one external blast process per shard, and merges the
per-shard outputs.  Files are modelled as lists of bytes (Nat values), paths
as strings or allocation indices, and the external processes by their exit
codes.  Line numbers in the doc comments refer to src/blast.py.
-/

namespace Blast

/-- One step of the readline loop of split_fasta (line 105): accumulate bytes
of the current line; byte 10 (newline) ends the line and is kept at the end of
the line, matching Python readline semantics.  A final line with no trailing
newline is returned as is; nothing is returned for an exhausted file. -/
def splitLinesAux : List Nat → List Nat → List (List Nat)
  | [], acc => if acc = [] then [] else [acc.reverse]
  | b :: rest, acc =>
    if b = 10 then (acc.reverse ++ [10]) :: splitLinesAux rest []
    else splitLinesAux rest (b :: acc)

/-- The sequence of lines returned by repeated readline calls on the file
(lines 104-110 of blast.py). -/
def splitLines (file : List Nat) : List (List Nat) := splitLinesAux file []

/-- Byte offsets, in file order, of the lines whose first byte is 62 (the
ASCII code of the record delimiter marker); blast.py lines 106-107 record
open_input.tell() - len(line) for each such line, which is the offset of the
start of the line. -/
def recordStartsFrom : List (List Nat) → Nat → List Nat
  | [], _ => []
  | line :: rest, pos =>
    (if line.head? = some 62 then [pos] else []) ++ recordStartsFrom rest (pos + line.length)

/-- Offsets of all record starts of the file. -/
def recordStarts (file : List Nat) : List Nat := recordStartsFrom (splitLines file) 0

/-- The position_list built by the scan loop of split_fasta (blast.py lines
102-110): the offset of every delimiter line, then the file length appended
when readline returns the empty bytes object at end of file. -/
def position_list (file : List Nat) : List Nat := recordStarts file ++ [file.length]

/-- Number of records of the input, as computed by split_fasta at line 111:
len(position_list) - 1. -/
def numRecords (file : List Nat) : Nat := (position_list file).length - 1

/-- Ceiling division on naturals; for b at least 1 this equals
math.ceil(a / b) as evaluated at blast.py line 111. -/
def ceilDiv (a b : Nat) : Nat := (a + b - 1) / b

/-- The shard producing loop of split_fasta (blast.py lines 112-123): starting
at position_list_index i, the slice positions holds at most step + 1 offsets;
the loop stops when fewer than two offsets remain, otherwise it emits the byte
range from positions[0] to positions[-1] and advances the index by step. -/
def shardLoop (pl : List Nat) (step : Nat) (i : Nat) : List (Nat × Nat) :=
  if h : ((pl.drop i).take (step + 1)).length ≤ 1 then []
  else
    (((pl.drop i).take (step + 1)).headD 0, ((pl.drop i).take (step + 1)).getLastD 0) ::
      shardLoop pl step (i + step)
termination_by pl.length - i
decreasing_by
  simp only [List.length_take, List.length_drop] at h
  omega

/-- split_fasta (blast.py lines 101-125) as a function from the file bytes and
the thread count n to the list of shard byte contents in production (yield)
order: a produced range (a, b) is materialized as the bytes obtained by
seek(a) followed by read(b - a), that is (file.drop a).take (b - a). -/
def split_fasta (file : List Nat) (n : Nat) : List (List Nat) :=
  (shardLoop (position_list file) (ceilDiv ((position_list file).length - 1) n) 0).map
    (fun r => (file.drop r.1).take (r.2 - r.1))

/-- run_blast_thread (blast.py lines 128-135), indexed by the returncode of
the external blast command: on a nonzero returncode the assert raises before
os.remove runs, so nothing is deleted; on returncode zero the shard input file
is removed.  The result is the list of files the worker deleted, or the
assertion message. -/
def run_blast_thread (returncode : Nat) (input_file : String) :
    Except String (List String) :=
  if returncode ≠ 0 then .error "An error has occured while running blast."
  else .ok [input_file]

/-- The ten output column names joined by tab characters (blast.py line 149). -/
def header_str : String :=
  String.intercalate "\t"
    ["qseqid", "qstart", "qend", "qlen", "sseqid", "sstart", "send", "slen",
      "pident", "score"]

/-- The encoded header bytes written by combine (line 150) before the newline
byte. -/
def header_bytes : List Nat := header_str.data.map Char.toNat

/-- The inner copy loop of combine (blast.py lines 153-155): read blocks of at
most blockSize bytes from the source and append each block to the output; the
loop stops when write returns 0, which happens exactly when read returns the
empty bytes object. -/
def copyBlocks (blockSize : Nat) (src : List Nat) (out : List Nat) : List Nat :=
  if h : src.take blockSize = [] then out
  else copyBlocks blockSize (src.drop blockSize) (out ++ src.take blockSize)
termination_by src.length
decreasing_by
  rw [List.take_eq_nil_iff] at h
  push_neg at h
  have h2 : 0 < src.length := List.length_pos.mpr h.2
  simp only [List.length_drop]
  omega

/-- combine (blast.py lines 147-159) processed file by file: for each input
file, append its bytes to the output through the block copy loop, then delete
it (os.remove at line 157).  The result is the final output byte content and
the deleted paths in deletion order. -/
def combineLoop : List (String × List Nat) → List Nat → List Nat × List String
  | [], out => (out, [])
  | f :: rest, out =>
    let r := combineLoop rest (copyBlocks (1024 ^ 3) f.2 out)
    (r.1, f.1 :: r.2)

/-- The full effect of combine on a list of (path, content) input files: the
header line is written first, then every input is streamed and deleted. -/
def combine (inputs : List (String × List Nat)) : List Nat × List String :=
  combineLoop inputs (header_bytes ++ [10])

/-- The command line parameters of blast.py used during command construction
(the argparse Namespace fields read at lines 181-194). -/
structure Params where
  function : String
  target : String
  strand : String
  codon_table : Nat

/-- Subscript access parameters[key] on the argparse Namespace (blast.py line
193): a Namespace supports attribute access only, so subscripting raises
TypeError before any comparison happens. -/
def namespaceSubscript (_p : Params) (_key : String) : Except String String :=
  .error "TypeError: Namespace object is not subscriptable"

/-- Construction of the blast worker command (blast.py lines 181-194).  The
blastn, blastx and tblastx branches read the function name by attribute
access; the tblastn branch at line 193 subscripts the Namespace, which
raises. -/
def build_command (p : Params) : Except String (List String) :=
  let command := [p.function, "-db", p.target, "-num_threads", "1", "-outfmt",
    "6 qseqid qstart qend qlen sseqid sstart send slen pident score"]
  if p.function = "blastn" then .ok (command ++ ["-strand", p.strand])
  else if p.function = "blastx" then
    .ok (command ++ ["-strand", p.strand, "-query_gencode", toString p.codon_table])
  else if p.function = "tblastx" then
    .ok (command ++ ["-strand", p.strand, "-db_gencode", toString p.codon_table,
      "-query_gencode", toString p.codon_table])
  else
    match namespaceSubscript p "function" with
    | .error e => .error e
    | .ok f =>
      if f = "tblastn" then .ok (command ++ ["-db_gencode", toString p.codon_table])
      else .ok command

/-- Exit code of one worker child process: run_blast_thread is the target of a
multiprocessing.Process, so an uncaught AssertionError makes the child process
exit with code 1, while a normal return exits with code 0. -/
def child_exit (r : Except String (List String)) : Nat :=
  match r with
  | .ok _ => 0
  | .error _ => 1

/-- Exit status of the parent process after the dispatch section (blast.py
lines 198-211): every Process is started and then joined, but Process.join
returns None and the exitcode attribute of the children is never inspected, so
the fold over the join loop leaves the parent exit status at its success value
0 whatever the children did. -/
def main_exit_code (commandReturncodes : List Nat) (input_files : List String) : Nat :=
  ((commandReturncodes.zip input_files).map
    (fun w => child_exit (run_blast_thread w.1 w.2))).foldl
    (fun parentExit _ => parentExit) 0

/-- The output_list built by the dispatch loop (blast.py lines 198-207): one
output path per shard, appended in shard production order; paths are
abstracted as allocation indices. -/
def dispatch_output_list (numShards : Nat) : List Nat := List.range numShards

/-- The files present after every worker has completed, as a write log keyed
by output path: worker i writes its bytes to path i, and completionOrder
lists the worker indices in the order in which they happened to finish. -/
def fs_after_run (outputs : List (List Nat)) (completionOrder : List Nat) :
    List (Nat × List Nat) :=
  completionOrder.map (fun i => (i, outputs.getD i []))

/-- Reading a path from the write log. -/
def read_file (fs : List (Nat × List Nat)) (p : Nat) : List Nat :=
  ((fs.find? (fun e => e.1 == p)).map Prod.snd).getD []

/-- The merge step of the pipeline: combine is called on output_list in shard
production order (blast.py line 217), reading each per-shard output file from
the file system left behind by the workers. -/
def pipeline_merged (outputs : List (List Nat)) (completionOrder : List Nat) :
    List Nat :=
  (combine ((dispatch_output_list outputs.length).map
    (fun i => (toString i, read_file (fs_after_run outputs completionOrder) i)))).1

/-- Boolean test that a line is a record delimiter line. -/
def isRecLine (line : List Nat) : Bool := line.head? == some 62

/-- Grouping of the file lines into records: a record is one delimiter line
together with the non delimiter lines that follow it; lines before the first
delimiter line belong to no record. -/
def recordLines : List (List Nat) → List (List (List Nat))
  | [] => []
  | line :: rest =>
    if isRecLine line then
      (line :: rest.takeWhile (fun l => !isRecLine l)) ::
        recordLines (rest.dropWhile (fun l => !isRecLine l))
    else recordLines rest
termination_by ls => ls.length
decreasing_by
  · have h3 := (List.dropWhile_sublist (l := rest) (fun l => !isRecLine l)).length_le
    simp only [List.length_cons]
    omega
  · simp only [List.length_cons]
    omega

/-- The records of the input file, each given by its byte content. -/
def recordsOf (file : List Nat) : List (List Nat) :=
  (recordLines (splitLines file)).map List.flatten

/-- Offsets of consecutive blocks laid end to end starting at offset q. -/
def offsetsFrom (q : Nat) : List (List Nat) → List Nat
  | [] => []
  | r :: rs => q :: offsetsFrom (q + r.length) rs

/-- Partition of a list into consecutive chunks of size s, the last chunk
possibly shorter; no chunk is produced when s = 0 or the list is empty. -/
def chunks : Nat → List α → List (List α)
  | _, [] => []
  | 0, _ :: _ => []
  | s + 1, a :: l => ((a :: l).take (s + 1)) :: chunks (s + 1) ((a :: l).drop (s + 1))
termination_by s l => l.length
decreasing_by
  simp only [List.length_drop, List.length_cons]
  omega

/-- Length in bytes of the part of the file that precedes the first record. -/
def leadLen (file : List Nat) : Nat :=
  ((splitLines file).takeWhile (fun l => !isRecLine l)).flatten.length

/-! ### Concrete inputs used by counterexamples and witnesses -/

/-- Six records, each a single delimiter line of two bytes. -/
def fileC3 : List Nat := [62, 10, 62, 10, 62, 10, 62, 10, 62, 10, 62, 10]

/-- A leading non record line followed by two records. -/
def fileTwoRec : List Nat := [120, 10, 62, 10, 65, 67, 10, 62, 10, 71, 71]

/-- Three records of different sizes, the last with no trailing newline. -/
def fileThreeRec : List Nat :=
  [62, 10, 65, 65, 65, 65, 10, 62, 10, 67, 67, 10, 62, 10, 71]

/-- A file with no delimiter lines at all. -/
def fileNoRec : List Nat := [97, 98, 99, 10]

/-! ### Lemmas about lines -/

theorem splitLinesAux_flatten (l : List Nat) :
    ∀ acc : List Nat, (splitLinesAux l acc).flatten = acc.reverse ++ l := by
  induction l with
  | nil =>
    intro acc
    by_cases h : acc = [] <;> simp [splitLinesAux, h]
  | cons b rest ih =>
    intro acc
    by_cases hb : b = 10
    · subst hb
      simp [splitLinesAux, ih]
    · simp [splitLinesAux, hb, ih]

theorem splitLines_flatten (file : List Nat) : (splitLines file).flatten = file := by
  simp [splitLines, splitLinesAux_flatten]

theorem dropWhile_dropWhile (p : α → Bool) (l : List α) :
    (l.dropWhile p).dropWhile p = l.dropWhile p := by
  induction l with
  | nil => simp
  | cons a l ih =>
    by_cases h : p a
    · simp [List.dropWhile_cons, h, ih]
    · simp [List.dropWhile_cons, h]

/-! ### Lemmas about the record grouping -/

theorem recordLines_cons_rec (line : List Nat) (rest : List (List Nat))
    (h : isRecLine line = true) :
    recordLines (line :: rest) =
      (line :: rest.takeWhile (fun l => !isRecLine l)) ::
        recordLines (rest.dropWhile (fun l => !isRecLine l)) := by
  rw [recordLines]
  simp [h]

theorem recordLines_cons_nonrec (line : List Nat) (rest : List (List Nat))
    (h : isRecLine line = false) :
    recordLines (line :: rest) = recordLines rest := by
  rw [recordLines]
  simp [h]

theorem recordLines_dropWhile (ls : List (List Nat)) :
    recordLines (ls.dropWhile (fun l => !isRecLine l)) = recordLines ls := by
  induction ls with
  | nil => simp
  | cons line rest ih =>
    by_cases h : isRecLine line
    · rw [List.dropWhile_cons_of_neg (by simp [h])]
    · rw [List.dropWhile_cons_of_pos (by simp [h]), ih,
        recordLines_cons_nonrec line rest (by simpa using h)]

theorem flatten_recordLines (ls : List (List Nat)) :
    ((recordLines ls).map List.flatten).flatten
      = (ls.dropWhile (fun l => !isRecLine l)).flatten := by
  induction ls using recordLines.induct with
  | case1 => simp [recordLines]
  | case2 line rest h ih =>
    rw [recordLines_cons_rec line rest h,
      List.dropWhile_cons_of_neg (by simp [h])]
    simp only [List.map_cons, List.flatten_cons, ih, dropWhile_dropWhile]
    rw [List.append_assoc, ← List.flatten_append, List.takeWhile_append_dropWhile]
  | case3 line rest h ih =>
    rw [recordLines_cons_nonrec line rest (by simpa using h),
      List.dropWhile_cons_of_pos (by simp [h]), ih]

/-! ### Generic take, drop and flatten lemmas -/

theorem take_add_eq (l : List α) (m n : Nat) :
    l.take (m + n) = l.take m ++ (l.drop m).take n := by
  induction m generalizing l with
  | zero => simp
  | succ m ih =>
    cases l with
    | nil => simp
    | cons a l =>
      have h : m + 1 + n = (m + n) + 1 := by omega
      rw [h]
      simp only [List.take_succ_cons, List.drop_succ_cons, ih, List.cons_append]

theorem flatten_drop_sum (L : List (List α)) (a : Nat) :
    L.flatten.drop (((L.take a).map List.length).sum) = (L.drop a).flatten := by
  have h : L.flatten = (L.take a).flatten ++ (L.drop a).flatten := by
    rw [← List.flatten_append, List.take_append_drop]
  rw [h, ← List.length_flatten, List.drop_left]

theorem flatten_take_sum (L : List (List α)) (a : Nat) :
    L.flatten.take (((L.take a).map List.length).sum) = (L.take a).flatten := by
  have h : L.flatten = (L.take a).flatten ++ (L.drop a).flatten := by
    rw [← List.flatten_append, List.take_append_drop]
  rw [h, ← List.length_flatten, List.take_left]

theorem sum_map_take_split (L : List (List α)) (a b : Nat) (hab : a ≤ b) :
    ((L.take b).map List.length).sum
      = ((L.take a).map List.length).sum + (((L.drop a).take (b - a)).map List.length).sum := by
  have h : L.take b = L.take a ++ (L.drop a).take (b - a) := by
    have hb : b = a + (b - a) := by omega
    rw [hb, take_add_eq]
    have h2 : a + (b - a) - a = b - a := by omega
    rw [h2]
  rw [h, List.map_append, List.sum_append]

theorem sum_map_take_le (L : List (List α)) (b : Nat) :
    ((L.take b).map List.length).sum ≤ (L.map List.length).sum := by
  conv_rhs => rw [← List.take_append_drop b L]
  rw [List.map_append, List.sum_append]
  omega

/-! ### The position list as record offsets -/

theorem recordStartsFrom_eq_offsets (ls : List (List Nat)) :
    ∀ pos : Nat,
      recordStartsFrom ls pos
        = offsetsFrom (pos + (ls.takeWhile (fun l => !isRecLine l)).flatten.length)
            ((recordLines ls).map List.flatten) := by
  induction ls with
  | nil =>
    intro pos
    simp [recordStartsFrom, recordLines, offsetsFrom]
  | cons line rest ih =>
    intro pos
    by_cases h : isRecLine line
    · have hh : line.head? = some 62 := by simpa [isRecLine] using h
      rw [recordLines_cons_rec line rest h, List.takeWhile_cons_of_neg (by simp [h])]
      simp only [recordStartsFrom, hh, if_pos rfl, List.map_cons, offsetsFrom,
        List.flatten_nil, List.length_nil, Nat.add_zero, List.singleton_append,
        List.flatten_cons, List.length_append]
      rw [ih (pos + line.length), recordLines_dropWhile]
      simp [Nat.add_assoc]
    · have hh : ¬ line.head? = some 62 := by simpa [isRecLine] using h
      rw [recordLines_cons_nonrec line rest (by simpa using h),
        List.takeWhile_cons_of_pos (by simp [h])]
      simp only [recordStartsFrom, hh, if_neg hh, List.nil_append, List.flatten_cons,
        List.length_append]
      rw [ih (pos + line.length)]
      simp [Nat.add_assoc]

theorem recordStarts_eq_offsets (file : List Nat) :
    recordStarts file = offsetsFrom (leadLen file) (recordsOf file) := by
  have h := recordStartsFrom_eq_offsets (splitLines file) 0
  simpa [recordStarts, leadLen, recordsOf] using h

theorem offsetsFrom_length (q : Nat) (rs : List (List Nat)) :
    (offsetsFrom q rs).length = rs.length := by
  induction rs generalizing q with
  | nil => simp [offsetsFrom]
  | cons r rs ih => simp [offsetsFrom, ih]

theorem offsetsFrom_getElem (q : Nat) (rs : List (List Nat)) :
    ∀ j, j < rs.length →
      (offsetsFrom q rs)[j]? = some (q + ((rs.take j).map List.length).sum) := by
  induction rs generalizing q with
  | nil =>
    intro j hj
    simp at hj
  | cons r rs ih =>
    intro j hj
    cases j with
    | zero => simp [offsetsFrom]
    | succ j =>
      simp only [offsetsFrom, List.getElem?_cons_succ]
      rw [ih (q + r.length) j (by simpa using hj)]
      simp only [List.take_succ_cons, List.map_cons, List.sum_cons]
      congr 1
      omega

theorem numRecords_eq_length (file : List Nat) :
    numRecords file = (recordsOf file).length := by
  simp [numRecords, position_list, recordStarts_eq_offsets, offsetsFrom_length]

theorem file_decomp (file : List Nat) :
    file = ((splitLines file).takeWhile (fun l => !isRecLine l)).flatten
      ++ (recordsOf file).flatten := by
  calc file = (splitLines file).flatten := (splitLines_flatten file).symm
    _ = ((splitLines file).takeWhile (fun l => !isRecLine l)
          ++ (splitLines file).dropWhile (fun l => !isRecLine l)).flatten := by
        rw [List.takeWhile_append_dropWhile]
    _ = ((splitLines file).takeWhile (fun l => !isRecLine l)).flatten
          ++ ((splitLines file).dropWhile (fun l => !isRecLine l)).flatten := by
        rw [List.flatten_append]
    _ = ((splitLines file).takeWhile (fun l => !isRecLine l)).flatten
          ++ (recordsOf file).flatten := by
        rw [recordsOf, flatten_recordLines]

theorem drop_leadLen (file : List Nat) :
    file.drop (leadLen file) = (recordsOf file).flatten := by
  nth_rewrite 2 [file_decomp file]
  rw [leadLen, List.drop_left]

theorem length_eq_leadLen_add (file : List Nat) :
    file.length = leadLen file + (((recordsOf file).map List.length).sum) := by
  nth_rewrite 1 [file_decomp file]
  rw [List.length_append, leadLen]
  congr 1
  exact List.length_flatten _

theorem position_list_getElem (file : List Nat) (i : Nat) (hi : i ≤ numRecords file) :
    (position_list file)[i]?
      = some (leadLen file + (((recordsOf file).take i).map List.length).sum) := by
  have hlen : (recordStarts file).length = (recordsOf file).length := by
    rw [recordStarts_eq_offsets, offsetsFrom_length]
  rw [numRecords_eq_length] at hi
  rcases Nat.lt_or_ge i (recordsOf file).length with hlt | hge
  · rw [position_list, List.getElem?_append_left (by omega), recordStarts_eq_offsets,
      offsetsFrom_getElem (leadLen file) (recordsOf file) i hlt]
  · have hi2 : i = (recordsOf file).length := by omega
    rw [position_list, List.getElem?_append_right (by omega), hlen, hi2]
    simp only [Nat.sub_self, List.getElem?_cons_zero]
    rw [List.take_length, ← length_eq_leadLen_add]

/-! ### Byte slices between record offsets -/

theorem slice_eq_records (file : List Nat) (a b : Nat) (hab : a ≤ b)
    (hb : b ≤ numRecords file) :
    (file.drop ((position_list file).getD a 0)).take
        ((position_list file).getD b 0 - (position_list file).getD a 0)
      = (((recordsOf file).drop a).take (b - a)).flatten := by
  have ha2 := position_list_getElem file a (le_trans hab hb)
  have hb2 := position_list_getElem file b hb
  rw [List.getD_eq_getElem?_getD, List.getD_eq_getElem?_getD, ha2, hb2]
  simp only [Option.getD_some]
  rw [sum_map_take_split (recordsOf file) a b hab]
  rw [show leadLen file + ((((recordsOf file).take a).map List.length).sum
        + ((((recordsOf file).drop a).take (b - a)).map List.length).sum)
      - (leadLen file + (((recordsOf file).take a).map List.length).sum)
      = ((((recordsOf file).drop a).take (b - a)).map List.length).sum by omega]
  rw [← List.drop_drop, drop_leadLen, flatten_drop_sum]
  exact flatten_take_sum ((recordsOf file).drop a) (b - a)

/-! ### Chunk lemmas -/

theorem chunks_nil (s : Nat) : chunks s ([] : List α) = [] := by
  cases s <;> rw [chunks]

theorem chunks_cons_eq (s : Nat) (l : List α) (hs : 1 ≤ s) (hl : l ≠ []) :
    chunks s l = l.take s :: chunks s (l.drop s) := by
  cases s with
  | zero => omega
  | succ s =>
    cases l with
    | nil => exact absurd rfl hl
    | cons a l => rw [chunks]

theorem chunks_flatten (s : Nat) (l : List α) :
    1 ≤ s → (chunks s l).flatten = l := by
  induction s, l using chunks.induct with
  | case1 s =>
    intro hs
    rw [chunks_nil]
    rfl
  | case2 a l =>
    intro hs
    omega
  | case3 s a l ih =>
    intro hs
    rw [chunks, List.flatten_cons, ih (by omega), List.take_append_drop]

theorem ceilDiv_step (m t : Nat) (ht : 1 ≤ t) (hm : 1 ≤ m) :
    ceilDiv m t = 1 + ceilDiv (m - t) t := by
  unfold ceilDiv
  rcases Nat.le_total m t with h | h
  · have h1 : (m + t - 1) / t = 1 := Nat.div_eq_of_lt_le (by omega) (by omega)
    have h2 : (0 + t - 1) / t = 0 := Nat.div_eq_of_lt (by omega)
    rw [show m - t = 0 by omega, h1, h2]
  · rw [show m + t - 1 = (m - t + t - 1) + t by omega, Nat.add_div_right _ (by omega)]
    omega

theorem ceilDiv_zero_left (t : Nat) : ceilDiv 0 t = 0 := by
  unfold ceilDiv
  rcases Nat.eq_zero_or_pos t with h | h
  · rw [h]
  · exact Nat.div_eq_of_lt (by omega)

theorem chunks_length (s : Nat) (l : List α) :
    1 ≤ s → (chunks s l).length = ceilDiv l.length s := by
  induction s, l using chunks.induct with
  | case1 s =>
    intro hs
    rw [chunks_nil]
    simp [ceilDiv_zero_left]
  | case2 a l =>
    intro hs
    omega
  | case3 s a l ih =>
    intro hs
    rw [chunks, List.length_cons, ih (by omega),
      ceilDiv_step (a :: l).length (s + 1) (by omega) (by simp)]
    simp only [List.length_drop]
    omega

theorem chunks_getD (s : Nat) (l : List α) (hs : 1 ≤ s) :
    ∀ j, (chunks s l).getD j [] = (l.drop (j * s)).take s := by
  induction s, l using chunks.induct with
  | case1 s =>
    intro j
    rw [chunks_nil]
    simp
  | case2 a l =>
    omega
  | case3 s a l ih =>
    intro j
    cases j with
    | zero =>
      rw [chunks]
      simp
    | succ j =>
      rw [chunks]
      show (chunks (s + 1) ((a :: l).drop (s + 1))).getD j [] = _
      rw [ih hs j, List.drop_drop]
      congr 2
      simp only [Nat.succ_eq_add_one]
      ring

theorem chunks_ne_nil_mem (s : Nat) (l : List α) (hs : 1 ≤ s) :
    ∀ c ∈ chunks s l, c ≠ [] ∧ ∀ x ∈ c, x ∈ l := by
  induction s, l using chunks.induct with
  | case1 s =>
    intro c hc
    rw [chunks_nil] at hc
    simp at hc
  | case2 a l =>
    omega
  | case3 s a l ih =>
    intro c hc
    rw [chunks] at hc
    rcases List.mem_cons.mp hc with h | h
    · subst h
      refine ⟨by simp, fun x hx => ?_⟩
      exact List.mem_of_mem_take hx
    · rcases ih hs c h with ⟨h1, h2⟩
      exact ⟨h1, fun x hx => List.mem_of_mem_drop (h2 x hx)⟩

end Blast

namespace Blast

/-! ### The shard loop produces record chunks -/

theorem position_list_length (file : List Nat) :
    (position_list file).length = (recordsOf file).length + 1 := by
  rw [position_list, List.length_append, recordStarts_eq_offsets, offsetsFrom_length]
  simp

theorem take_min_length (l : List α) (s : Nat) : l.take (min s l.length) = l.take s := by
  rcases Nat.le_total s l.length with h | h
  · rw [Nat.min_eq_left h]
  · rw [Nat.min_eq_right h, List.take_length, List.take_of_length_le h]

theorem headD_take_drop (pl : List Nat) (i k : Nat) (hi : i < pl.length) (hk : 1 ≤ k) :
    ((pl.drop i).take k).headD 0 = pl.getD i 0 := by
  rw [List.headD_eq_head?_getD, List.head?_eq_getElem?,
    List.getElem?_take_of_lt (by omega), List.getElem?_drop, List.getD_eq_getElem?_getD]
  simp

theorem getLastD_take_drop (pl : List Nat) (i k : Nat)
    (h : 1 ≤ ((pl.drop i).take k).length) :
    ((pl.drop i).take k).getLastD 0
      = pl.getD (i + ((pl.drop i).take k).length - 1) 0 := by
  have hlt : ((pl.drop i).take k).length - 1 < k := by
    simp only [List.length_take, List.length_drop] at h ⊢
    omega
  rw [List.getLastD_eq_getLast?, List.getLast?_eq_getElem?,
    List.getElem?_take_of_lt hlt, List.getElem?_drop, List.getD_eq_getElem?_getD,
    show i + (((pl.drop i).take k).length - 1) = i + ((pl.drop i).take k).length - 1
      by omega]

theorem shardLoop_map_eq_chunks (file : List Nat) (s : Nat) (hs : 1 ≤ s) :
    ∀ fuel i, (position_list file).length - i ≤ fuel →
      (shardLoop (position_list file) s i).map
          (fun r => (file.drop r.1).take (r.2 - r.1))
        = (chunks s ((recordsOf file).drop i)).map List.flatten := by
  have hR := position_list_length file
  intro fuel
  induction fuel with
  | zero =>
    intro i hfi
    rw [shardLoop, dif_pos (by simp only [List.length_take, List.length_drop]; omega),
      List.drop_eq_nil_of_le (by omega), chunks_nil]
    rfl
  | succ fuel ih =>
    intro i hfi
    rcases Nat.lt_or_ge i (recordsOf file).length with hi | hi
    · have hb1 : i ≤ min (i + s) (recordsOf file).length := by omega
      have hb2 : min (i + s) (recordsOf file).length ≤ numRecords file := by
        rw [numRecords_eq_length]
        omega
      have hnil : (recordsOf file).drop i ≠ [] :=
        List.length_pos.mp (by simp only [List.length_drop]; omega)
      rw [shardLoop, dif_neg (by simp only [List.length_take, List.length_drop]; omega),
        List.map_cons,
        headD_take_drop (position_list file) i (s + 1) (by omega) (by omega),
        getLastD_take_drop (position_list file) i (s + 1)
          (by simp only [List.length_take, List.length_drop]; omega),
        show i + (((position_list file).drop i).take (s + 1)).length - 1
            = min (i + s) (recordsOf file).length by
          simp only [List.length_take, List.length_drop]
          omega,
        chunks_cons_eq s ((recordsOf file).drop i) hs hnil, List.map_cons]
      congr 1
      · show (file.drop ((position_list file).getD i 0)).take
            ((position_list file).getD (min (i + s) (recordsOf file).length) 0
              - (position_list file).getD i 0)
          = (((recordsOf file).drop i).take s).flatten
        rw [slice_eq_records file i (min (i + s) (recordsOf file).length) hb1 hb2,
          show min (i + s) (recordsOf file).length - i
              = min s (((recordsOf file).drop i).length) by
            simp only [List.length_drop]
            omega]
        exact congrArg List.flatten (take_min_length _ s)
      · rw [List.drop_drop]
        exact ih (i + s) (by omega)
    · rw [shardLoop, dif_pos (by simp only [List.length_take, List.length_drop]; omega),
        List.drop_eq_nil_of_le (by omega), chunks_nil]
      rfl

theorem ceilDiv_pos (R n : Nat) (hn : 1 ≤ n) (hR : 1 ≤ R) : 1 ≤ ceilDiv R n := by
  unfold ceilDiv
  rw [Nat.one_le_div_iff (by omega)]
  omega

theorem split_fasta_eq_chunks (file : List Nat) (n : Nat) (hn : 1 ≤ n)
    (hR : 1 ≤ numRecords file) :
    split_fasta file n
      = (chunks (ceilDiv (numRecords file) n) (recordsOf file)).map List.flatten := by
  have hs : 1 ≤ ceilDiv (numRecords file) n := ceilDiv_pos _ n hn hR
  rw [split_fasta, show (position_list file).length - 1 = numRecords file from rfl]
  have h := shardLoop_map_eq_chunks file (ceilDiv (numRecords file) n) hs
    (position_list file).length 0 (by omega)
  simpa using h

end Blast

namespace Blast

/-! ### Arithmetic facts about ceiling division -/

theorem ceilDiv_eq_mathlib (a b : Nat) : ceilDiv a b = a ⌈/⌉ b := rfl

theorem mul_lt_of_lt_ceilDiv (R s j : Nat) (hs : 1 ≤ s) (h : j < ceilDiv R s) :
    j * s < R := by
  by_contra hc
  push_neg at hc
  have h2 : ceilDiv R s ≤ j := by
    rw [ceilDiv_eq_mathlib]
    refine (ceilDiv_le_iff_le_smul (by omega)).mpr ?_
    simpa [Nat.mul_comm] using hc
  omega

theorem ceilDiv_le_self (R s : Nat) (hs : 1 ≤ s) : ceilDiv R s ≤ R := by
  rw [ceilDiv_eq_mathlib]
  refine (ceilDiv_le_iff_le_smul (by omega)).mpr ?_
  have h1 : R * 1 ≤ R * s := Nat.mul_le_mul_left R hs
  simpa [Nat.mul_comm] using h1

theorem ceilDiv_ceilDiv_le (R n : Nat) (hn : 1 ≤ n) (hR : 1 ≤ R) :
    ceilDiv R (ceilDiv R n) ≤ n := by
  have hs : 1 ≤ ceilDiv R n := ceilDiv_pos R n hn hR
  rw [ceilDiv_eq_mathlib]
  refine (ceilDiv_le_iff_le_smul (by omega)).mpr ?_
  have h1 : R ≤ n • (R ⌈/⌉ n) := le_smul_ceilDiv (by omega)
  rw [← ceilDiv_eq_mathlib] at h1
  simpa [Nat.mul_comm] using h1

end Blast

namespace Blast

/-! ### Record heads and empty inputs -/

theorem recordLines_mem_head (ls : List (List Nat)) :
    ∀ g ∈ recordLines ls, ∃ line rest2, g = line :: rest2 ∧ line.head? = some 62 := by
  induction ls using recordLines.induct with
  | case1 =>
    intro g hg
    rw [recordLines] at hg
    simp at hg
  | case2 line rest h ih =>
    intro g hg
    rw [recordLines_cons_rec line rest h] at hg
    rcases List.mem_cons.mp hg with h2 | h2
    · exact ⟨line, _, h2, by simpa [isRecLine] using h⟩
    · exact ih g h2
  | case3 line rest h ih =>
    intro g hg
    rw [recordLines_cons_nonrec line rest (by simpa using h)] at hg
    exact ih g hg

theorem recordsOf_head (file : List Nat) :
    ∀ r ∈ recordsOf file, r.head? = some 62 := by
  intro r hr
  rw [recordsOf] at hr
  rcases List.mem_map.mp hr with ⟨g, hg, hflat⟩
  rcases recordLines_mem_head (splitLines file) g hg with ⟨line, rest2, hgeq, hhead⟩
  rw [← hflat, hgeq, List.flatten_cons]
  cases line with
  | nil => simp at hhead
  | cons a t => simpa using hhead

theorem split_fasta_of_no_records (file : List Nat) (n : Nat)
    (h : numRecords file = 0) : split_fasta file n = [] := by
  have hpl := position_list_length file
  have h2 := numRecords_eq_length file
  rw [split_fasta, shardLoop,
    dif_pos (by simp only [List.length_take, List.length_drop]; omega)]
  rfl

theorem flatten_map_flatten (L : List (List (List α))) :
    (L.map List.flatten).flatten = L.flatten.flatten := by
  induction L with
  | nil => rfl
  | cons g L ih => simp [ih]

theorem getD_map_flatten (L : List (List (List α))) (j : Nat) :
    (L.map List.flatten).getD j [] = (L.getD j []).flatten := by
  rw [List.getD_eq_getElem?_getD, List.getD_eq_getElem?_getD, List.getElem?_map]
  cases h : L[j]? <;> simp

/-! ### Combine -/

theorem copyBlocks_eq (B : Nat) (hB : 1 ≤ B) (src out : List Nat) :
    copyBlocks B src out = out ++ src := by
  have main : ∀ fuel (src out : List Nat), src.length ≤ fuel →
      copyBlocks B src out = out ++ src := by
    intro fuel
    induction fuel with
    | zero =>
      intro src out hle
      have hsrc : src = [] := List.length_eq_zero.mp (by omega)
      subst hsrc
      rw [copyBlocks, dif_pos (by simp), List.append_nil]
    | succ fuel ih =>
      intro src out hle
      by_cases h : src.take B = []
      · rw [copyBlocks, dif_pos h]
        rw [List.take_eq_nil_iff] at h
        rcases h with h | h
        · omega
        · rw [h, List.append_nil]
      · rw [copyBlocks, dif_neg h]
        have h2 : src ≠ [] := by
          intro hx
          exact h (by simp [hx])
        have h3 : 0 < src.length := List.length_pos.mpr h2
        rw [ih (src.drop B) (out ++ src.take B)
            (by simp only [List.length_drop]; omega),
          List.append_assoc, List.take_append_drop]
  exact main src.length src out le_rfl

theorem combineLoop_spec (inputs : List (String × List Nat)) :
    ∀ out, combineLoop inputs out
      = (out ++ (inputs.map Prod.snd).flatten, inputs.map Prod.fst) := by
  induction inputs with
  | nil =>
    intro out
    simp [combineLoop]
  | cons f rest ih =>
    intro out
    rw [combineLoop]
    simp only [ih, copyBlocks_eq (1024 ^ 3) (by norm_num) f.2 out, List.map_cons,
      List.flatten_cons, List.append_assoc]

theorem combine_spec (inputs : List (String × List Nat)) :
    combine inputs
      = (header_bytes ++ [10] ++ (inputs.map Prod.snd).flatten, inputs.map Prod.fst) := by
  rw [combine, combineLoop_spec]

/-! ### The write log of the workers -/

theorem read_file_write_log (outputs : List (List Nat)) (completionOrder : List Nat)
    (i : Nat) (hins : i ∈ completionOrder) :
    read_file (fs_after_run outputs completionOrder) i = outputs.getD i [] := by
  induction completionOrder with
  | nil => simp at hins
  | cons j order ih =>
    by_cases hj : j = i
    · subst hj
      rw [fs_after_run, List.map_cons, read_file, List.find?_cons_of_pos _ (by simp)]
      rfl
    · rcases List.mem_cons.mp hins with h | h
      · exact absurd h.symm hj
      · rw [fs_after_run, List.map_cons, read_file,
          List.find?_cons_of_neg _ (by simp [hj])]
        exact ih h

theorem map_range_getD (l : List (List Nat)) :
    (List.range l.length).map (fun i => l.getD i []) = l := by
  induction l with
  | nil => simp
  | cons x l ih =>
    have h2 : (List.range l.length).map ((fun i => (x :: l).getD i []) ∘ Nat.succ)
        = (List.range l.length).map (fun i => l.getD i []) :=
      List.map_congr_left (fun a _ => by simp [Function.comp])
    rw [List.length_cons, List.range_succ_eq_map, List.map_cons, List.map_map, h2, ih,
      List.getD_cons_zero]

end Blast

namespace Blast

/-! ### Pipeline level helpers -/

theorem pipeline_merged_eq (outputs : List (List Nat)) (completionOrder : List Nat)
    (hall : ∀ i < outputs.length, i ∈ completionOrder) :
    pipeline_merged outputs completionOrder
      = header_bytes ++ [10] ++ outputs.flatten := by
  rw [pipeline_merged, dispatch_output_list, combine_spec]
  simp only [List.map_map]
  have h2 : (List.range outputs.length).map
      (Prod.snd ∘ fun i => (toString i, read_file (fs_after_run outputs completionOrder) i))
      = (List.range outputs.length).map (fun i => outputs.getD i []) :=
    List.map_congr_left (fun i hi => by
      simp only [Function.comp_apply]
      exact read_file_write_log outputs completionOrder i
        (hall i (List.mem_range.mp hi)))
  rw [h2, map_range_getD]

theorem split_fasta_length (file : List Nat) (n : Nat) (hn : 1 ≤ n)
    (hR : 1 ≤ numRecords file) :
    (split_fasta file n).length
      = ceilDiv (numRecords file) (ceilDiv (numRecords file) n) := by
  rw [split_fasta_eq_chunks file n hn hR, List.length_map,
    chunks_length _ _ (ceilDiv_pos _ n hn hR), numRecords_eq_length]

theorem split_fasta_getD (file : List Nat) (n : Nat) (hn : 1 ≤ n)
    (hR : 1 ≤ numRecords file) (j : Nat) :
    (split_fasta file n).getD j []
      = (((recordsOf file).drop (j * ceilDiv (numRecords file) n)).take
          (ceilDiv (numRecords file) n)).flatten := by
  rw [split_fasta_eq_chunks file n hn hR, getD_map_flatten,
    chunks_getD _ _ (ceilDiv_pos _ n hn hR) j]

theorem shard_getD_eq_slice (file : List Nat) (n : Nat) (hn : 1 ≤ n)
    (hR : 1 ≤ numRecords file) (j : Nat) (hj : j < (split_fasta file n).length) :
    ∃ p, p ∈ recordStarts file
      ∧ (split_fasta file n).getD j []
          = (file.drop p).take ((split_fasta file n).getD j []).length := by
  have hs : 1 ≤ ceilDiv (numRecords file) n := ceilDiv_pos _ n hn hR
  have hRlen : numRecords file = (recordsOf file).length := numRecords_eq_length file
  set s := ceilDiv (numRecords file) n with hsdef
  have ha : j * s < numRecords file := by
    apply mul_lt_of_lt_ceilDiv (numRecords file) s j hs
    rw [← split_fasta_length file n hn hR]
    exact hj
  have hb1 : j * s ≤ min (j * s + s) (numRecords file) := by omega
  have hb2 : min (j * s + s) (numRecords file) ≤ numRecords file := by omega
  have hslice := slice_eq_records file (j * s) (min (j * s + s) (numRecords file)) hb1 hb2
  have hmin : min (j * s + s) (numRecords file) - j * s
      = min s (((recordsOf file).drop (j * s)).length) := by
    simp only [List.length_drop, ← hRlen]
    omega
  rw [hmin, take_min_length] at hslice
  have hshard := split_fasta_getD file n hn hR j
  -- the byte offsets of the slice ends
  have hpa := position_list_getElem file (j * s) (by omega)
  have hpb := position_list_getElem file (min (j * s + s) (numRecords file)) (by omega)
  have hle1 : (((recordsOf file).take (j * s)).map List.length).sum
      ≤ (((recordsOf file).take (min (j * s + s) (numRecords file))).map List.length).sum := by
    have h3 := sum_map_take_split (recordsOf file) (j * s)
      (min (j * s + s) (numRecords file)) hb1
    omega
  have hle2 : leadLen file
      + (((recordsOf file).take (min (j * s + s) (numRecords file))).map List.length).sum
      ≤ file.length := by
    have h4 := sum_map_take_le (recordsOf file) (min (j * s + s) (numRecords file))
    have h5 := length_eq_leadLen_add file
    omega
  refine ⟨(position_list file).getD (j * s) 0, ?_, ?_⟩
  · rw [List.getD_eq_getElem?_getD, hpa]
    apply List.getElem?_mem
    rw [recordStarts_eq_offsets,
      offsetsFrom_getElem (leadLen file) (recordsOf file) (j * s) (by omega)]
    rfl
  · have hlen : ((split_fasta file n).getD j []).length
        = (position_list file).getD (min (j * s + s) (numRecords file)) 0
          - (position_list file).getD (j * s) 0 := by
      rw [hshard, ← hslice, List.length_take, List.length_drop,
        List.getD_eq_getElem?_getD, List.getD_eq_getElem?_getD, hpa, hpb]
      simp only [Option.getD_some]
      omega
    rw [hlen, hshard, ← hslice]

end Blast

namespace Blast

/-! ### Claims -/

/-- C1: the spec requires that a non-zero exit of any worker command makes the
whole run report failure with a non-zero exit code, but the dispatch section
of blast.py (lines 198-211) never inspects the exit codes of the joined worker
processes: with a single worker whose blast command exits 1, the worker child
process itself exits 1 through the failed assertion, yet the parent process
still terminates with exit status 0.  The failed shard is silently
swallowed, contradicting the claim; the stranded assert in run_blast_thread
shows the intent, so this is a code bug. -/
theorem claim_C1_failure_swallowed :
    child_exit (run_blast_thread 1 "shard0") = 1
      ∧ main_exit_code [1] ["shard0"] = 0 := by
  constructor <;> rfl

/-- C2: with the tblastn alignment function selected, command construction
does not complete without error: the branch at blast.py line 193 subscripts
the argparse Namespace, which raises TypeError, so no worker command — and in
particular no command carrying the -db_gencode flag — is ever produced.  The
spec states the intended behavior (apply the database genetic code flag for
tblastn), so this is a code bug. -/
theorem claim_C2_tblastn_raises :
    build_command ⟨"tblastn", "db", "both", 11⟩
      = Except.error "TypeError: Namespace object is not subscriptable"
      ∧ ∀ cmd, build_command ⟨"tblastn", "db", "both", 11⟩ ≠ Except.ok cmd := by
  refine ⟨rfl, ?_⟩
  intro cmd h
  rw [show build_command ⟨"tblastn", "db", "both", 11⟩
      = Except.error "TypeError: Namespace object is not subscriptable" from rfl] at h
  exact Except.noConfusion h

/-- C3 counterexample: a six record input split with requested parallelism
four yields three shards, not min(4, 6) = 4, because the loop advances by
step = ceil(6/4) = 2 and therefore produces ceil(6/2) = 3 shards. -/
theorem claim_C3_counterexample :
    numRecords fileC3 = 6
      ∧ (split_fasta fileC3 4).length = 3
      ∧ (split_fasta fileC3 4).length ≠ min 4 (numRecords fileC3) := by
  have h1 : position_list fileC3 = [0, 2, 4, 6, 8, 10, 12] := by decide
  have h2 : ceilDiv ((position_list fileC3).length - 1) 4 = 2 := by
    rw [h1]
    decide
  have h3 : (split_fasta fileC3 4).length = 3 := by
    rw [split_fasta, h2, h1]
    simp [shardLoop]
  refine ⟨by decide, h3, ?_⟩
  rw [h3, show numRecords fileC3 = 6 by decide]
  decide

/-- C3 (amended): for an input with R at least 1 records and parallelism n at
least 1, split_fasta produces ceil(R / s) shards where s = ceil(R / n); this
is at most min(n, R) but can be smaller (see the counterexample).  Shard j is
the concatenation of records j*s .. j*s+s-1 of the input, so every shard
except the last holds exactly s records and the last holds between 1 and s
records. -/
theorem claim_C3_amended (file : List Nat) (n : Nat) (hn : 1 ≤ n)
    (hR : 1 ≤ numRecords file) :
    (split_fasta file n).length
        = ceilDiv (numRecords file) (ceilDiv (numRecords file) n)
      ∧ (split_fasta file n).length ≤ min n (numRecords file)
      ∧ (∀ j, (split_fasta file n).getD j []
            = (((recordsOf file).drop (j * ceilDiv (numRecords file) n)).take
                (ceilDiv (numRecords file) n)).flatten)
      ∧ (∀ j, j + 1 < (split_fasta file n).length →
          (((recordsOf file).drop (j * ceilDiv (numRecords file) n)).take
              (ceilDiv (numRecords file) n)).length = ceilDiv (numRecords file) n)
      ∧ (∀ j, j + 1 = (split_fasta file n).length →
          1 ≤ (((recordsOf file).drop (j * ceilDiv (numRecords file) n)).take
              (ceilDiv (numRecords file) n)).length
            ∧ (((recordsOf file).drop (j * ceilDiv (numRecords file) n)).take
              (ceilDiv (numRecords file) n)).length
              ≤ ceilDiv (numRecords file) n) := by
  have hs : 1 ≤ ceilDiv (numRecords file) n := ceilDiv_pos _ n hn hR
  have hRlen : numRecords file = (recordsOf file).length := numRecords_eq_length file
  have hcount := split_fasta_length file n hn hR
  refine ⟨hcount, ?_, fun j => split_fasta_getD file n hn hR j, ?_, ?_⟩
  · rw [hcount]
    exact le_min (ceilDiv_ceilDiv_le (numRecords file) n hn hR)
      (ceilDiv_le_self (numRecords file) _ hs)
  · intro j hj
    rw [hcount] at hj
    have h4 : (j + 1) * ceilDiv (numRecords file) n < numRecords file :=
      mul_lt_of_lt_ceilDiv _ _ _ hs (by omega)
    rw [Nat.succ_mul] at h4
    simp only [List.length_take, List.length_drop, ← hRlen]
    omega
  · intro j hj
    rw [hcount] at hj
    have h4 : j * ceilDiv (numRecords file) n < numRecords file :=
      mul_lt_of_lt_ceilDiv _ _ _ hs (by omega)
    simp only [List.length_take, List.length_drop, ← hRlen]
    omega

/-- C3 witness: the amended count law evaluated on the six record input with
parallelism four. -/
theorem claim_C3_amended_witness :
    1 ≤ (4 : Nat) ∧ 1 ≤ numRecords fileC3
      ∧ (split_fasta fileC3 4).length
          = ceilDiv (numRecords fileC3) (ceilDiv (numRecords fileC3) 4) :=
  ⟨by decide, by decide, (claim_C3_amended fileC3 4 (by decide) (by decide)).1⟩

/-- C4: concatenating the shard bytes in production order reproduces exactly
the record bearing bytes of the input: everything from the first record start
offset — the head of position_list, which is the file length when no record
exists — to the end of the file, the bytes before the first delimiter line
being excluded. -/
theorem claim_C4_roundtrip (file : List Nat) (n : Nat) (hn : 1 ≤ n) :
    (split_fasta file n).flatten
      = file.drop ((position_list file).headD 0) := by
  rcases Nat.eq_zero_or_pos (numRecords file) with h0 | h0
  · rw [split_fasta_of_no_records file n h0]
    have hrs : recordStarts file = [] := by
      apply List.length_eq_zero.mp
      rw [recordStarts_eq_offsets, offsetsFrom_length, ← numRecords_eq_length, h0]
    rw [position_list, hrs, List.nil_append]
    simp
  · rw [split_fasta_eq_chunks file n hn h0, flatten_map_flatten,
      chunks_flatten _ _ (ceilDiv_pos _ n hn h0)]
    have hhead : (position_list file).headD 0 = leadLen file := by
      rw [List.headD_eq_head?_getD, List.head?_eq_getElem?,
        position_list_getElem file 0 (by omega)]
      simp
    rw [hhead, drop_leadLen]

/-- C4 witness: the round trip law evaluated on a file with a leading non
record line and two records, split in two. -/
theorem claim_C4_witness :
    1 ≤ (2 : Nat) ∧ (split_fasta fileTwoRec 2).flatten
      = fileTwoRec.drop ((position_list fileTwoRec).headD 0) :=
  ⟨by decide, claim_C4_roundtrip fileTwoRec 2 (by decide)⟩

/-- C5: combine produces exactly one header line — the ten tab separated
column names followed by a newline byte — followed by the byte for byte
concatenation of the input file contents in list order, and deletes exactly
the input files, in consumption order. -/
theorem claim_C5_combine (inputs : List (String × List Nat)) :
    combine inputs
      = (header_bytes ++ [10] ++ (inputs.map Prod.snd).flatten,
          inputs.map Prod.fst) :=
  combine_spec inputs

/-- C6: every shard produced by split_fasta begins with the delimiter byte 62,
and it is exactly the bytes of the original file starting at a record start
offset (the offset of a line whose first byte is 62) and extending for the
length of the shard: no shard boundary falls inside a record. -/
theorem claim_C6_boundaries (file : List Nat) (n : Nat) (hn : 1 ≤ n) :
    ∀ sh ∈ split_fasta file n,
      sh.head? = some 62
        ∧ ∃ p, p ∈ recordStarts file ∧ sh = (file.drop p).take sh.length := by
  intro sh hsh
  rcases Nat.eq_zero_or_pos (numRecords file) with h0 | h0
  · rw [split_fasta_of_no_records file n h0] at hsh
    simp at hsh
  · have hs : 1 ≤ ceilDiv (numRecords file) n := ceilDiv_pos _ n hn h0
    constructor
    · rw [split_fasta_eq_chunks file n hn h0] at hsh
      rcases List.mem_map.mp hsh with ⟨c, hc, hflat⟩
      rcases chunks_ne_nil_mem _ _ hs c hc with ⟨hne, hmem⟩
      cases c with
      | nil => exact absurd rfl hne
      | cons r more =>
        have hr : r.head? = some 62 :=
          recordsOf_head file r (hmem r (by simp))
        rw [← hflat, List.flatten_cons]
        cases r with
        | nil => simp at hr
        | cons a t => simpa using hr
    · rcases List.getElem_of_mem hsh with ⟨j, hjlt, hje⟩
      have hgd : (split_fasta file n).getD j [] = sh := by
        rw [List.getD_eq_getElem?_getD, List.getElem?_eq_getElem hjlt, hje]
        rfl
      rcases shard_getD_eq_slice file n hn h0 j hjlt with ⟨p, hp, heq⟩
      exact ⟨p, hp, by rw [← hgd]; exact heq⟩

/-- C6 witness: the boundary law evaluated on a three record input split in
two. -/
theorem claim_C6_witness :
    1 ≤ (2 : Nat) ∧ ∀ sh ∈ split_fasta fileThreeRec 2,
      sh.head? = some 62
        ∧ ∃ p, p ∈ recordStarts fileThreeRec
            ∧ sh = (fileThreeRec.drop p).take sh.length :=
  ⟨by decide, claim_C6_boundaries fileThreeRec 2 (by decide)⟩

/-- C7: run_blast_thread deletes the shard input file exactly when the
external alignment command exits with code zero; on a non-zero exit the
assertion raises first, the function returns the assertion message, and
nothing is deleted. -/
theorem claim_C7_delete_iff_success (returncode : Nat) (input_file : String) :
    ((∃ deleted, run_blast_thread returncode input_file = Except.ok deleted
        ∧ input_file ∈ deleted) ↔ returncode = 0)
      ∧ (returncode ≠ 0 →
          run_blast_thread returncode input_file
            = Except.error "An error has occured while running blast.") := by
  constructor
  · constructor
    · rintro ⟨deleted, hok, _⟩
      by_contra hrc
      rw [run_blast_thread, if_pos hrc] at hok
      exact Except.noConfusion hok
    · intro h
      refine ⟨[input_file], ?_, by simp⟩
      rw [run_blast_thread, if_neg (by simp [h])]
  · intro h
    rw [run_blast_thread, if_pos h]

/-- C8: on an input with no delimiter lines the computed step is zero, yet the
producing loop exits immediately through its fewer-than-two-offsets guard (the
embedded loop is a total function, its termination argument covering the step
zero case), so split_fasta yields zero shards and no error occurs. -/
theorem claim_C8_no_records (file : List Nat) (n : Nat) (hn : 1 ≤ n)
    (h : recordStarts file = []) : split_fasta file n = [] := by
  apply split_fasta_of_no_records
  rw [numRecords, position_list, h, List.nil_append]
  rfl

/-- C8 witness: the zero shard law evaluated on a delimiter free file. -/
theorem claim_C8_witness :
    1 ≤ (4 : Nat) ∧ recordStarts fileNoRec = [] ∧ split_fasta fileNoRec 4 = [] :=
  ⟨by decide, by decide, claim_C8_no_records fileNoRec 4 (by decide) (by decide)⟩

/-- C9: whatever the order in which the worker processes finish writing their
outputs, the merger consumes the output paths in shard production order, so
the merged file is the header line followed by the shard outputs in shard
order. -/
theorem claim_C9_order (outputs : List (List Nat)) (completionOrder : List Nat)
    (hall : ∀ i < outputs.length, i ∈ completionOrder) :
    pipeline_merged outputs completionOrder
      = header_bytes ++ [10] ++ outputs.flatten :=
  pipeline_merged_eq outputs completionOrder hall

/-- C9 witness: three shard outputs merged while the workers complete in the
order 1, 2, 0. -/
theorem claim_C9_witness :
    (∀ i < ([[65], [66], [67]] : List (List Nat)).length, i ∈ [1, 2, 0])
      ∧ pipeline_merged [[65], [66], [67]] [1, 2, 0]
          = header_bytes ++ [10] ++ ([[65], [66], [67]] : List (List Nat)).flatten :=
  ⟨by decide, claim_C9_order [[65], [66], [67]] [1, 2, 0] (by decide)⟩

/-- C10: combine called on an empty list of input files writes exactly the
header line — the ten tab separated column names followed by a newline — and
deletes no file. -/
theorem claim_C10_empty_combine :
    combine [] = (header_bytes ++ [10], []) := rfl

end Blast
